import Mathlib

/-!
Shallow embedding of the distribution/build-tag resolution core of the
ocelot repository:

* `tools/scripts/otel_layer_utils/distribution_utils.py` — loading the
  distribution table and resolving inherited build tags
  (`load_distributions`, `resolve_build_tags`);
* `tools/scripts/build_extension_layer.py` — component selection by build
  tags and dependency-module computation (`load_component_dependencies`,
  `resolve_components_by_tags`, the `modules_to_add` set of
  `add_dependencies`).

Python strings are Lean `String`s; the string primitives the code relies on
(lexicographic comparison, prefix/suffix tests, splitting on dots) are
modelled structurally on the character list so that every definition
evaluates inside the kernel. Python dicts are insertion-ordered association
lists, Python sets are duplicate-free lists, and raised `DistributionError`s
are explicit error values, one constructor per `raise` site.
-/

/-- Lexicographic comparison of character lists by code point, modelling
comparison of Python strings. -/
def charListLe : List Char → List Char → Bool
  | [], _ => true
  | _ :: _, [] => false
  | a :: as, b :: bs =>
    if a.toNat < b.toNat then true
    else if b.toNat < a.toNat then false
    else charListLe as bs

/-- Python `a <= b` on strings. -/
def pyStrLe (a b : String) : Bool := charListLe a.toList b.toList

/-- `isPrefixCharsB p l` decides whether `p` is a prefix of `l`. -/
def isPrefixCharsB : List Char → List Char → Bool
  | [], _ => true
  | _ :: _, [] => false
  | a :: as, b :: bs => a == b && isPrefixCharsB as bs

/-- Python `s.startswith(p)`. -/
def pyStartsWith (s p : String) : Bool := isPrefixCharsB p.toList s.toList

/-- Python `s.endswith(p)`. -/
def pyEndsWith (s p : String) : Bool := isPrefixCharsB p.toList.reverse s.toList.reverse

/-- Python `s.rsplit(".", 1)[0]`: everything before the last dot, or the
whole string when it has no dot. -/
def pyRsplitDot (s : String) : String :=
  let r := s.toList.reverse
  if r.contains '.' then String.mk ((r.dropWhile (fun c => !(c == '.'))).drop 1).reverse
  else s

/-- Helper for Python `s.split(".")` on the character list. -/
def splitDots : List Char → List (List Char)
  | [] => [[]]
  | c :: cs =>
    if c == '.' then [] :: splitDots cs
    else
      match splitDots cs with
      | [] => [[c]]
      | h :: t => (c :: h) :: t

/-- Python `s.split(".")`. -/
def pySplitDots (s : String) : List String := (splitDots s.toList).map String.mk

/-- Insert a string into a sorted list, keeping it sorted. -/
def insertSortedStr (x : String) : List String → List String
  | [] => [x]
  | y :: ys => if pyStrLe x y then x :: y :: ys else y :: insertSortedStr x ys

/-- Insertion sort by `pyStrLe`. -/
def sortStrs : List String → List String
  | [] => []
  | x :: xs => insertSortedStr x (sortStrs xs)

/-- Python `sorted(list(set(l)))`: the sorted duplicate-free list carrying
the same set of strings as `l`. -/
def pySortedSet (l : List String) : List String := sortStrs l.dedup

/-! ## Data model of `distributions.yaml` entries -/

/-- A Python value stored under the `base` key of a distribution entry:
a string, or any non-string value (split by Python truthiness, which is the
first thing `resolve_build_tags` tests on it). -/
inductive BaseVal where
  | str (s : String)
  | otherTruthy
  | otherFalsy
deriving DecidableEq

/-- Python truthiness of a `base` value; the empty string is falsy. -/
def BaseVal.pyTruthy : BaseVal → Bool
  | .str s => !(s == "")
  | .otherTruthy => true
  | .otherFalsy => false

/-- A Python value stored under the `buildtags` key: a list of strings or
any non-list value (for example a plain string or an explicit `null`). -/
inductive TagsVal where
  | list (l : List String)
  | other
deriving DecidableEq

/-- One distribution entry body. `none` fields model absent keys; the keys
`description` and `config-file` are never read by the resolver and are
omitted. -/
structure DistInfo where
  base : Option BaseVal
  buildtags : Option TagsVal
deriving DecidableEq

/-- The distribution table: insertion-ordered mapping from name to entry
body. A `none` body models a YAML key whose body is empty (`null`). -/
abbrev DistTable := List (String × Option DistInfo)

/-- The raw mapping entry stored under key `n`, when the key is present. -/
def lookupEntry (t : DistTable) (n : String) : Option (Option DistInfo) :=
  (t.find? (fun p => p.1 == n)).map (fun p => p.2)

/-- Python `distributions_data.get(name)`: yields `None` both for an absent
key and for a key whose stored value is `None`. -/
def pyGet (t : DistTable) (n : String) : Option DistInfo :=
  match lookupEntry t n with
  | some (some i) => some i
  | _ => none

/-- The structure of the `DistributionError` values `resolve_build_tags`
raises, one constructor per `raise` site. `baseContext b n e` is the wrapper
message added when resolving base `b` of distribution `n` failed with `e`. -/
inductive DistErr where
  | circular (name : String)
  | notFound (name : String)
  | invalidBase (name : String)
  | invalidTags (name : String)
  | baseContext (base : String) (name : String) (inner : DistErr)
deriving DecidableEq

/-- The innermost error of a chain of base-resolution context wrappers. -/
def DistErr.core : DistErr → DistErr
  | .baseContext _ _ e => e.core
  | .circular n => .circular n
  | .notFound n => .notFound n
  | .invalidBase n => .invalidBase n
  | .invalidTags n => .invalidTags n

/-- Outcome of one call to `resolve_build_tags`: a returned tag list or a
raised `DistributionError`. -/
inductive DResult where
  | ok (tags : List String)
  | err (e : DistErr)
deriving DecidableEq

/-- The `base` handling block of `resolve_build_tags` (the body from
`base_name = dist_info.get("base")` through the recursive call): the
resulting `base_tags`, a raised error, or (`none`) a blown call stack inside
the recursion `recTags`. An absent or Python-falsy `base` is skipped; a
truthy non-string raises; a truthy string recurses and wraps any raised
error in a context message. -/
def baseStepOf (recTags : String → Option DResult) (name : String) (info : DistInfo) :
    Option DResult :=
  match info.base with
  | some pb =>
    if pb.pyTruthy then
      match pb with
      | .str b =>
        match recTags b with
        | none => none
        | some (.err e) => some (.err (.baseContext b name e))
        | some (.ok tags) => some (.ok tags)
      | _ => some (.err (.invalidBase name))
    else some (.ok [])
  | none => some (.ok [])

/-- The tail of `resolve_build_tags` after the base block: propagate a base
failure, validate `buildtags` (default `[]`), and return the sorted
deduplicated union. -/
def finishTags (name : String) (info : DistInfo) (baseStep : Option DResult) : Option DResult :=
  match baseStep with
  | none => none
  | some (.err e) => some (.err e)
  | some (.ok baseTags) =>
    match info.buildtags.getD (.list []) with
    | .other => some (.err (.invalidTags name))
    | .list own => some (.ok (pySortedSet (baseTags ++ own)))

/-- `resolve_build_tags(distribution_name, distributions_data, visited)`
from `distribution_utils.py`. The `Nat` argument is explicit fuel standing
for the call-stack depth (`none` = fuel ran out; fuel `t.length + 1` is
proved sufficient below). `visited` is the transient traversal set, a
duplicate-free list; every recursive call receives `visited.copy()` with the
current name added. -/
def resolveAux (t : DistTable) : Nat → String → List String → Option DResult
  | 0, _, _ => none
  | fuel + 1, name, visited =>
    if name ∈ visited then some (.err (.circular name))
    else
      match pyGet t name with
      | none => some (.err (.notFound name))
      | some info =>
        finishTags name info
          (baseStepOf (fun b => resolveAux t fuel b (name :: visited)) name info)

/-- The public call `resolve_build_tags(name, distributions_data)` with a
fresh `visited` set. -/
def resolve_build_tags (name : String) (t : DistTable) : Option DResult :=
  resolveAux t (t.length + 1) name []

/-- State-explicit rendering of `resolve_build_tags`: the second component
is the final state of the caller-supplied `visited` set object. The code
runs `visited.add(distribution_name)` on that very object, while each
recursive call receives `visited.copy()`, so mutations inside the recursion
never reach the caller's object. -/
def resolveAuxSt (t : DistTable) : Nat → String → List String → Option DResult × List String
  | 0, _, visited => (none, visited)
  | fuel + 1, name, visited =>
    if name ∈ visited then (some (.err (.circular name)), visited)
    else
      match pyGet t name with
      | none => (some (.err (.notFound name)), visited)
      | some info =>
        -- `visited.add(name)` mutates the caller's set object; the recursive
        -- call receives `visited.copy()`, whose final state is discarded
        (finishTags name info
          (baseStepOf (fun b => (resolveAuxSt t fuel b (name :: visited)).1) name info),
         name :: visited)

/-- Calling `resolve_build_tags(name, t, visited)` with an explicitly
supplied `visited` set, tracking that set's final state. -/
def resolve_build_tagsSt (name : String) (t : DistTable) (visited : List String) :
    Option DResult × List String :=
  resolveAuxSt t (t.length + 1) name visited

/-- The base name the resolver will recurse into for an entry: its `base`
field when that is a truthy (non-empty) string, nothing otherwise. -/
def baseNameOf (info : DistInfo) : Option String :=
  match info.base with
  | some (.str s) => if s == "" then none else some s
  | _ => none

/-- `true` when the entry's `base` field is absent or Python-falsy, so the
resolver skips the whole base branch. -/
def noTruthyBase (info : DistInfo) : Bool :=
  match info.base with
  | none => true
  | some pb => !pb.pyTruthy

/-- The entry's own `buildtags` as the resolver reads them: `[]` when the
key is absent, its list when it is a list, nothing when it is malformed. -/
def ownTagsOf (info : DistInfo) : Option (List String) :=
  match info.buildtags with
  | none => some []
  | some (.list l) => some l
  | some .other => none

/-- One step along the `base` references: defined exactly when the resolver
would recurse from `n` into a base. -/
def baseSucc (t : DistTable) (n : String) : Option String :=
  match pyGet t n with
  | some info => baseNameOf info
  | none => none

/-- The chain of `base` references starting at `n`. -/
def baseChain (t : DistTable) (n : String) : Nat → Option String
  | 0 => some n
  | i + 1 => (baseChain t n i).bind (baseSucc t)

/-- The distinct table keys not yet visited; its length bounds the residual
recursion depth of `resolveAux`. -/
def freeKeys (t : DistTable) (visited : List String) : List String :=
  (t.map Prod.fst).dedup.filter (fun k => decide (k ∉ visited))

/-! ## Component selector (`build_extension_layer.py`) -/

/-- A value of the dependency mapping: a single module path, a list of
module paths, or any other shape (warned about and skipped). -/
inductive DepVal where
  | str (s : String)
  | list (l : List String)
  | other
deriving DecidableEq

/-- The component dependency mapping, an insertion-ordered dict. -/
abbrev DepMap := List (String × DepVal)

/-- Python `dependency_mappings.get(component_tag)`. -/
def pyGetDep (m : DepMap) (k : String) : Option DepVal :=
  (m.find? (fun p => p.1 == k)).map (fun p => p.2)

/-- The `category_all_tags` dict built by `resolve_components_by_tags`:
insertion-ordered keys collected from every active tag that ends in `.all`
and is not the global `lambdacomponents.all` tag. -/
def buildCategories (active : List String) : List String :=
  active.foldl
    (fun acc tag =>
      if pyEndsWith tag ".all" && !(tag == "lambdacomponents.all") then
        let category := pyRsplitDot tag
        if acc.contains category then acc else acc ++ [category]
      else acc)
    []

/-- The per-key inclusion test of `resolve_components_by_tags`: direct
match, then the global `lambdacomponents.all` tag, then the category loop
(with early break, here `List.any`). -/
def includedByTags (active : List String) (categories : List String) (k : String) : Bool :=
  if active.contains k then true
  else if active.contains "lambdacomponents.all" then true
  else categories.any (fun category => pyStartsWith k (category ++ ".") && !(pyEndsWith k ".all"))

/-- `resolve_components_by_tags(active_build_tags, dependency_mappings)`
from `build_extension_layer.py`. -/
def resolve_components_by_tags (active : List String) (deps : DepMap) : List String :=
  let categories := buildCategories active
  (deps.map Prod.fst).filter (includedByTags active categories)

/-- Python `set.add` on an insertion-ordered duplicate-free list. -/
def setAddStr (acc : List String) (s : String) : List String :=
  if acc.contains s then acc else acc ++ [s]

/-- The `modules_to_add` set computed by `add_dependencies` before any
subprocess runs. The early return for an empty mapping injects nothing,
matching the empty fold; a mapping value that is neither a list nor a
string only emits a warning and contributes nothing. -/
def modulesToAdd (active : List String) (deps : DepMap) : List String :=
  (resolve_components_by_tags active deps).foldl
    (fun acc tag =>
      match pyGetDep deps tag with
      | some (.list l) => l.foldl setAddStr acc
      | some (.str s) => setAddStr acc s
      | _ => acc)
    []

/-- The module dependencies a mapping value declares: a single string counts
as a one-element collection. -/
def DepVal.modules : DepVal → List String
  | .str s => [s]
  | .list l => l
  | .other => []

/-! ## Config loading -/

/-- A parsed YAML root for `distributions.yaml`: a mapping, or any
non-mapping value together with its Python truthiness. -/
inductive YamlDoc where
  | map (entries : DistTable)
  | nonMap (truthy : Bool)
deriving DecidableEq

/-- Python truthiness of a loaded root; an empty mapping is falsy. -/
def YamlDoc.pyTruthy : YamlDoc → Bool
  | .map entries => !entries.isEmpty
  | .nonMap b => b

/-- What `load_distributions` can find on disk: no file, or a file whose
content parses to `None` (empty content), or a root value. The YAML
parse-error branch, which also raises, is outside this model. -/
inductive FileState where
  | absent
  | present (doc : Option YamlDoc)
deriving DecidableEq

/-- The two load-time `DistributionError`s of `load_distributions`. -/
inductive LoadErr where
  | fileNotFound
  | emptyOrInvalid
deriving DecidableEq

/-- `load_distributions(yaml_path)` from `distribution_utils.py`:
missing file and falsy parsed data raise; any truthy root is returned. -/
def load_distributions : FileState → Except LoadErr YamlDoc
  | .absent => .error .fileNotFound
  | .present none => .error .emptyOrInvalid
  | .present (some doc) => if doc.pyTruthy then .ok doc else .error .emptyOrInvalid

/-- A value stored under a root key of `component_dependencies.yaml`: a
mapping (what `dependencies` should hold) or anything else. -/
inductive DepRootVal where
  | dict (m : DepMap)
  | nonDict
deriving DecidableEq

/-- A parsed YAML root for `component_dependencies.yaml`. -/
inductive DepYamlDoc where
  | map (entries : List (String × DepRootVal))
  | nonMapTruthy
  | nonMapFalsy
deriving DecidableEq

/-- Disk state for the dependency config file. -/
inductive DepFileState where
  | absent
  | present (doc : Option DepYamlDoc)
deriving DecidableEq

/-- Root-level key lookup in the dependency config. -/
def pyGetRoot (entries : List (String × DepRootVal)) (k : String) : Option DepRootVal :=
  (entries.find? (fun p => p.1 == k)).map (fun p => p.2)

/-- `load_component_dependencies(yaml_path)` from `build_extension_layer.py`:
it never raises; a missing file, falsy content, a root without a
`dependencies` key, or a non-mapping `dependencies` value all degrade to the
empty mapping with a warning. -/
def load_component_dependencies : DepFileState → DepMap
  | .absent => []
  | .present none => []
  | .present (some (.map entries)) =>
    if entries.isEmpty then []
    else
      match pyGetRoot entries "dependencies" with
      | some (.dict m) => m
      | _ => []
  | .present (some .nonMapTruthy) => []
  | .present (some .nonMapFalsy) => []

/-! ## The selector inclusion rules as the specification words them

These definitions follow the wording of the specification (not the code) so
that the code's behaviour can be compared against them; `<domain>` and
`<category>` are single dot-free segments. -/

/-- Spec rule 1, direct match: the key itself is an active tag. -/
def specDirectMatch (active : List String) (k : String) : Bool := active.contains k

/-- Spec rule 2, global wildcard: some literal tag of shape
`<domain>.all` is active. -/
def specGlobalWildcard (active : List String) : Bool :=
  active.any (fun tag =>
    match pySplitDots tag with
    | [_, s] => s == "all"
    | _ => false)

/-- Spec rule 3, category wildcard: some tag `<domain>.<category>.all` is
active, the key's first two dot-segments equal `<domain>.<category>`, and
the key's third segment is not `all`. -/
def specCategoryWildcard (active : List String) (k : String) : Bool :=
  active.any (fun tag =>
    match pySplitDots tag with
    | [d, c, s] =>
      s == "all" &&
      (match pySplitDots k with
       | d2 :: c2 :: rest => d2 == d && c2 == c && !(rest.headD "" == "all")
       | _ => false)
    | _ => false)

/-- Inclusion as the specification states it: any of the three rules. -/
def specIncluded (active : List String) (k : String) : Bool :=
  specDirectMatch active k || specGlobalWildcard active || specCategoryWildcard active k

/-! ## Sanity checks -/

example : pySortedSet ["b", "a", "b"] = ["a", "b"] := by decide

example :
    resolve_build_tags "child"
      [("base", some ⟨none, some (.list ["tag1"])⟩),
       ("child", some ⟨some (.str "base"), some (.list ["tag2"])⟩)] =
      some (.ok ["tag1", "tag2"]) := by decide

example :
    resolve_components_by_tags ["lambdacomponents.connector.all"]
      [("lambdacomponents.connector.aws", .list ["m1"]),
       ("lambdacomponents.connector.gcp", .list ["m2"]),
       ("lambdacomponents.exporter.x", .list ["m3"])] =
      ["lambdacomponents.connector.aws", "lambdacomponents.connector.gcp"] := by decide

example :
    modulesToAdd ["c1", "c2"] [("c1", .list ["modA"]), ("c2", .list ["modA", "modB"])] =
      ["modA", "modB"] := by decide

/-! ## Order and sorting lemmas -/

theorem charListLe_total (a : List Char) : ∀ b, charListLe a b = true ∨ charListLe b a = true := by
  induction a with
  | nil => intro b; left; rfl
  | cons x xs ih =>
    intro b
    cases b with
    | nil => right; rfl
    | cons y ys =>
      simp only [charListLe]
      by_cases h1 : x.toNat < y.toNat
      · left; simp [h1]
      · by_cases h2 : y.toNat < x.toNat
        · right; simp [h2]
        · rcases ih ys with h | h
          · left; simp [h1, h2, h]
          · right; simp [h1, h2, h]

theorem charListLe_trans (a : List Char) :
    ∀ b c, charListLe a b = true → charListLe b c = true → charListLe a c = true := by
  induction a with
  | nil => intro b c _ _; rfl
  | cons x xs ih =>
    intro b c hab hbc
    cases b with
    | nil => simp [charListLe] at hab
    | cons y ys =>
      cases c with
      | nil => simp [charListLe] at hbc
      | cons z zs =>
        simp only [charListLe] at hab hbc ⊢
        by_cases hxy : x.toNat < y.toNat
        · by_cases hyz : y.toNat < z.toNat
          · have hxz : x.toNat < z.toNat := Nat.lt_trans hxy hyz
            simp [hxz]
          · by_cases hzy : z.toNat < y.toNat
            · simp [hyz, hzy] at hbc
            · have hxz : x.toNat < z.toNat := by omega
              simp [hxz]
        · by_cases hyx : y.toNat < x.toNat
          · simp [hxy, hyx] at hab
          · simp only [hxy, hyx, if_false] at hab
            by_cases hyz : y.toNat < z.toNat
            · have hxz : x.toNat < z.toNat := by omega
              simp [hxz]
            · by_cases hzy : z.toNat < y.toNat
              · simp [hyz, hzy] at hbc
              · simp only [hyz, hzy, if_false] at hbc
                have hxz : ¬ x.toNat < z.toNat := by omega
                have hzx : ¬ z.toNat < x.toNat := by omega
                simp only [hxz, hzx, if_false]
                exact ih ys zs hab hbc

theorem pyStrLe_total (a b : String) : pyStrLe a b = true ∨ pyStrLe b a = true :=
  charListLe_total a.toList b.toList

theorem pyStrLe_trans {a b c : String} (hab : pyStrLe a b = true) (hbc : pyStrLe b c = true) :
    pyStrLe a c = true :=
  charListLe_trans a.toList b.toList c.toList hab hbc

theorem mem_insertSortedStr {y x : String} {l : List String} :
    y ∈ insertSortedStr x l ↔ y = x ∨ y ∈ l := by
  induction l with
  | nil => simp [insertSortedStr]
  | cons z zs ih =>
    by_cases h : pyStrLe x z = true
    · simp only [insertSortedStr, if_pos h, List.mem_cons]
    · simp only [insertSortedStr, if_neg h, List.mem_cons, ih]
      tauto

theorem sorted_insertSortedStr {x : String} {l : List String}
    (h : List.Sorted (fun a b => pyStrLe a b = true) l) :
    List.Sorted (fun a b => pyStrLe a b = true) (insertSortedStr x l) := by
  induction l with
  | nil => simp [insertSortedStr]
  | cons z zs ih =>
    rw [List.sorted_cons] at h
    obtain ⟨hz, hzs⟩ := h
    by_cases hle : pyStrLe x z = true
    · simp only [insertSortedStr, if_pos hle]
      rw [List.sorted_cons]
      refine ⟨?_, ?_⟩
      · intro b hb
        rcases List.mem_cons.mp hb with rfl | hb'
        · exact hle
        · exact pyStrLe_trans hle (hz b hb')
      · rw [List.sorted_cons]; exact ⟨hz, hzs⟩
    · simp only [insertSortedStr, if_neg hle]
      rw [List.sorted_cons]
      refine ⟨?_, ih hzs⟩
      intro b hb
      rcases mem_insertSortedStr.mp hb with rfl | hb'
      · rcases pyStrLe_total b z with h | h
        · exact absurd h hle
        · exact h
      · exact hz b hb'

theorem nodup_insertSortedStr {x : String} {l : List String} (hx : x ∉ l) (h : l.Nodup) :
    (insertSortedStr x l).Nodup := by
  induction l with
  | nil => simp [insertSortedStr]
  | cons z zs ih =>
    rw [List.nodup_cons] at h
    have hxz : x ≠ z := fun he => hx (he ▸ List.mem_cons_self z zs)
    have hxzs : x ∉ zs := fun he => hx (List.mem_cons_of_mem z he)
    by_cases hle : pyStrLe x z = true
    · simp only [insertSortedStr, if_pos hle]
      exact List.nodup_cons.mpr ⟨hx, List.nodup_cons.mpr ⟨h.1, h.2⟩⟩
    · simp only [insertSortedStr, if_neg hle]
      rw [List.nodup_cons]
      refine ⟨?_, ih hxzs h.2⟩
      intro hzmem
      rcases mem_insertSortedStr.mp hzmem with he | h'
      · exact hxz he.symm
      · exact h.1 h'

theorem mem_sortStrs {y : String} {l : List String} : y ∈ sortStrs l ↔ y ∈ l := by
  induction l with
  | nil => simp [sortStrs]
  | cons x xs ih => simp [sortStrs, mem_insertSortedStr, ih]

theorem sorted_sortStrs (l : List String) :
    List.Sorted (fun a b => pyStrLe a b = true) (sortStrs l) := by
  induction l with
  | nil => simp [sortStrs]
  | cons x xs ih => exact sorted_insertSortedStr ih

theorem nodup_sortStrs {l : List String} (h : l.Nodup) : (sortStrs l).Nodup := by
  induction l with
  | nil => simp [sortStrs]
  | cons x xs ih =>
    rw [List.nodup_cons] at h
    exact nodup_insertSortedStr (fun hm => h.1 (mem_sortStrs.mp hm)) (ih h.2)

theorem mem_pySortedSet {y : String} {l : List String} : y ∈ pySortedSet l ↔ y ∈ l := by
  simp [pySortedSet, mem_sortStrs, List.mem_dedup]

theorem sorted_pySortedSet (l : List String) :
    List.Sorted (fun a b => pyStrLe a b = true) (pySortedSet l) :=
  sorted_sortStrs l.dedup

theorem nodup_pySortedSet (l : List String) : (pySortedSet l).Nodup :=
  nodup_sortStrs (List.nodup_dedup l)

/-! ## Resolver unfolding and characterization lemmas -/

theorem resolveAux_succ (t : DistTable) (f : Nat) (n : String) (v : List String) :
    resolveAux t (f + 1) n v =
      if n ∈ v then some (.err (.circular n))
      else
        match pyGet t n with
        | none => some (.err (.notFound n))
        | some info =>
          finishTags n info (baseStepOf (fun b => resolveAux t f b (n :: v)) n info) := by
  rw [resolveAux]

theorem resolveAuxSt_succ (t : DistTable) (f : Nat) (n : String) (v : List String) :
    resolveAuxSt t (f + 1) n v =
      if n ∈ v then (some (.err (.circular n)), v)
      else
        match pyGet t n with
        | none => (some (.err (.notFound n)), v)
        | some info =>
          (finishTags n info
            (baseStepOf (fun b => (resolveAuxSt t f b (n :: v)).1) n info), n :: v) := by
  rw [resolveAuxSt]

theorem baseStepOf_of_noTruthy {recTags : String → Option DResult} {n : String} {info : DistInfo}
    (h : noTruthyBase info = true) : baseStepOf recTags n info = some (.ok []) := by
  obtain ⟨ob, otags⟩ := info
  cases ob with
  | none => rfl
  | some pb =>
    cases pb with
    | str s =>
      simp only [noTruthyBase] at h
      simp only [baseStepOf, BaseVal.pyTruthy]
      simp only [BaseVal.pyTruthy] at h
      rw [if_neg (by simpa using h)]
    | otherTruthy => simp [noTruthyBase, BaseVal.pyTruthy] at h
    | otherFalsy => rfl

theorem baseStepOf_of_baseName {recTags : String → Option DResult} {n : String} {info : DistInfo}
    {b : String} (h : baseNameOf info = some b) :
    baseStepOf recTags n info =
      match recTags b with
      | none => none
      | some (.err e) => some (.err (.baseContext b n e))
      | some (.ok tags) => some (.ok tags) := by
  obtain ⟨ob, otags⟩ := info
  cases ob with
  | none => simp [baseNameOf] at h
  | some pb =>
    cases pb with
    | str s =>
      simp only [baseNameOf] at h
      by_cases hs : (s == "") = true
      · rw [if_pos hs] at h; cases h
      · rw [if_neg hs] at h
        have hb : s = b := by injection h
        subst hb
        simp only [baseStepOf, BaseVal.pyTruthy]
        rw [if_pos (by simpa using hs)]
    | otherTruthy => simp [baseNameOf] at h
    | otherFalsy => simp [baseNameOf] at h

theorem baseStepOf_of_otherTruthy {recTags : String → Option DResult} {n : String}
    {info : DistInfo} (h : info.base = some .otherTruthy) :
    baseStepOf recTags n info = some (.err (.invalidBase n)) := by
  obtain ⟨ob, otags⟩ := info
  simp only at h
  subst h
  rfl

theorem base_trichotomy (info : DistInfo) :
    noTruthyBase info = true ∨ (∃ b, baseNameOf info = some b) ∨
      info.base = some .otherTruthy := by
  obtain ⟨ob, otags⟩ := info
  cases ob with
  | none => exact Or.inl rfl
  | some pb =>
    cases pb with
    | str s =>
      by_cases hs : (s == "") = true
      · exact Or.inl (by simp [noTruthyBase, BaseVal.pyTruthy, hs])
      · exact Or.inr (Or.inl ⟨s, by simp [baseNameOf, hs]⟩)
    | otherTruthy => exact Or.inr (Or.inr rfl)
    | otherFalsy => exact Or.inl rfl

theorem baseStepOf_eq_ok {recTags : String → Option DResult} {n : String} {info : DistInfo}
    {bt : List String} (h : baseStepOf recTags n info = some (.ok bt)) :
    (noTruthyBase info = true ∧ bt = []) ∨
      (∃ b, baseNameOf info = some b ∧ recTags b = some (.ok bt)) := by
  rcases base_trichotomy info with hn | ⟨b, hb⟩ | ho
  · rw [baseStepOf_of_noTruthy hn] at h
    exact Or.inl ⟨hn, by injection h with h'; injection h' with h''; exact h''.symm⟩
  · rw [baseStepOf_of_baseName hb] at h
    refine Or.inr ⟨b, hb, ?_⟩
    cases hr : recTags b with
    | none => rw [hr] at h; cases h
    | some res =>
      cases res with
      | err e => rw [hr] at h; simp at h
      | ok tags => rw [hr] at h; injection h with h'; injection h' with h''; rw [h'']
  · rw [baseStepOf_of_otherTruthy ho] at h
    simp at h

theorem baseStepOf_congr {rec1 rec2 : String → Option DResult} {n : String} {info : DistInfo}
    {x : DResult} (hrec : ∀ b res, rec1 b = some res → rec2 b = some res)
    (h : baseStepOf rec1 n info = some x) : baseStepOf rec2 n info = some x := by
  rcases base_trichotomy info with hn | ⟨b, hb⟩ | ho
  · rw [baseStepOf_of_noTruthy hn] at h
    rw [baseStepOf_of_noTruthy hn]
    exact h
  · rw [baseStepOf_of_baseName hb] at h
    rw [baseStepOf_of_baseName hb]
    cases hr : rec1 b with
    | none => rw [hr] at h; cases h
    | some res => rw [hr] at h; rw [hrec b res hr]; exact h
  · rw [baseStepOf_of_otherTruthy ho] at h
    rw [baseStepOf_of_otherTruthy ho]
    exact h

theorem baseStepOf_ne_none {recTags : String → Option DResult} {n : String} {info : DistInfo}
    (h : ∀ b, recTags b ≠ none) : baseStepOf recTags n info ≠ none := by
  rcases base_trichotomy info with hn | ⟨b, hb⟩ | ho
  · rw [baseStepOf_of_noTruthy hn]; simp
  · rw [baseStepOf_of_baseName hb]
    cases hr : recTags b with
    | none => exact absurd hr (h b)
    | some res => cases res <;> simp
  · rw [baseStepOf_of_otherTruthy ho]; simp

theorem getD_buildtags_list_iff {info : DistInfo} {own : List String} :
    info.buildtags.getD (TagsVal.list []) = .list own ↔ ownTagsOf info = some own := by
  cases hb : info.buildtags with
  | none => simp [ownTagsOf, hb, eq_comm]
  | some tv => cases tv <;> simp [ownTagsOf, hb]

theorem finishTags_ok_iff {n : String} {info : DistInfo} {bs : Option DResult} {r : List String} :
    finishTags n info bs = some (.ok r) ↔
      ∃ bt own, bs = some (.ok bt) ∧ ownTagsOf info = some own ∧
        r = pySortedSet (bt ++ own) := by
  cases bs with
  | none => simp [finishTags]
  | some x =>
    cases x with
    | err e => simp [finishTags]
    | ok bt =>
      cases hg : info.buildtags.getD (TagsVal.list []) with
      | other =>
        simp only [finishTags, hg]
        constructor
        · intro h; simp at h
        · rintro ⟨bt', own, hbt, hown, hr⟩
          rw [← getD_buildtags_list_iff] at hown
          rw [hg] at hown
          cases hown
      | list own =>
        simp only [finishTags, hg]
        constructor
        · intro h
          refine ⟨bt, own, rfl, getD_buildtags_list_iff.mp hg, ?_⟩
          injection h with h'
          injection h' with h''
          exact h''.symm
        · rintro ⟨bt', own', hbt, hown, hr⟩
          have hb : bt' = bt := by
            injection hbt with h'; injection h' with h''; exact h''.symm
          subst hb
          rw [← getD_buildtags_list_iff, hg] at hown
          have ho : own = own' := by injection hown
          subst ho
          rw [hr]

theorem finishTags_ne_none {n : String} {info : DistInfo} {bs : Option DResult}
    (h : bs ≠ none) : finishTags n info bs ≠ none := by
  cases bs with
  | none => exact absurd rfl h
  | some x =>
    cases x with
    | err e => simp [finishTags]
    | ok bt => cases hg : info.buildtags.getD (TagsVal.list []) <;> simp [finishTags, hg]

/-! ## Fuel monotonicity, visited-set shrinking, and totality -/

theorem resolveAux_mono_succ {t : DistTable} :
    ∀ {f : Nat} {n : String} {v : List String} {r : DResult},
      resolveAux t f n v = some r → resolveAux t (f + 1) n v = some r := by
  intro f
  induction f with
  | zero => intro n v r h; exact absurd h (by simp [resolveAux])
  | succ g ih =>
    intro n v r h
    rw [resolveAux_succ] at h
    rw [resolveAux_succ]
    by_cases hv : n ∈ v
    · rw [if_pos hv] at h; rw [if_pos hv]; exact h
    · rw [if_neg hv] at h; rw [if_neg hv]
      cases hg : pyGet t n with
      | none => rw [hg] at h; exact h
      | some info =>
        rw [hg] at h
        replace h : finishTags n info
            (baseStepOf (fun b => resolveAux t g b (n :: v)) n info) = some r := h
        show finishTags n info
          (baseStepOf (fun b => resolveAux t (g + 1) b (n :: v)) n info) = some r
        cases hbs : baseStepOf (fun b => resolveAux t g b (n :: v)) n info with
        | none => rw [hbs] at h; simp [finishTags] at h
        | some x =>
          rw [hbs] at h
          rw [baseStepOf_congr (fun b res hb => ih hb) hbs]
          exact h

theorem resolveAux_mono {t : DistTable} {f f' : Nat} {n : String} {v : List String}
    {r : DResult} (hle : f ≤ f') (h : resolveAux t f n v = some r) :
    resolveAux t f' n v = some r := by
  induction hle with
  | refl => exact h
  | step _ ih => exact resolveAux_mono_succ ih

theorem resolveAux_shrink {t : DistTable} :
    ∀ {f : Nat} {n : String} {v v' : List String} {r : List String},
      v' ⊆ v → resolveAux t f n v = some (.ok r) → resolveAux t f n v' = some (.ok r) := by
  intro f
  induction f with
  | zero => intro n v v' r _ h; exact absurd h (by simp [resolveAux])
  | succ g ih =>
    intro n v v' r hsub h
    rw [resolveAux_succ] at h
    rw [resolveAux_succ]
    by_cases hv : n ∈ v
    · rw [if_pos hv] at h; cases h
    · have hv' : n ∉ v' := fun hm => hv (hsub hm)
      rw [if_neg hv] at h
      rw [if_neg hv']
      cases hg : pyGet t n with
      | none => rw [hg] at h; simp at h
      | some info =>
        rw [hg] at h
        replace h : finishTags n info
            (baseStepOf (fun b => resolveAux t g b (n :: v)) n info) = some (.ok r) := h
        show finishTags n info
          (baseStepOf (fun b => resolveAux t g b (n :: v')) n info) = some (.ok r)
        rw [finishTags_ok_iff] at h
        obtain ⟨bt, own, hbs, hown, hr⟩ := h
        rw [finishTags_ok_iff]
        refine ⟨bt, own, ?_, hown, hr⟩
        rcases baseStepOf_eq_ok hbs with ⟨hnb, rfl⟩ | ⟨b, hbn, hrec⟩
        · exact baseStepOf_of_noTruthy hnb
        · rw [baseStepOf_of_baseName hbn]
          rw [ih (List.cons_subset_cons n hsub) hrec]

theorem pyGet_mem_keys {t : DistTable} {n : String} {info : DistInfo}
    (h : pyGet t n = some info) : n ∈ t.map Prod.fst := by
  unfold pyGet lookupEntry at h
  cases hf : t.find? (fun p => p.1 == n) with
  | none => rw [hf] at h; cases h
  | some q =>
    have hq := List.find?_some hf
    have hmem : q ∈ t := List.mem_of_find?_eq_some hf
    have hqn : q.1 = n := by simpa using hq
    rw [← hqn]
    exact List.mem_map_of_mem Prod.fst hmem

theorem length_filter_notMem_cons {L : List String} (hnd : L.Nodup) {n : String} (hn : n ∈ L)
    {v : List String} (hnv : n ∉ v) :
    (L.filter (fun k => decide (k ∉ n :: v))).length + 1 =
      (L.filter (fun k => decide (k ∉ v))).length := by
  induction L with
  | nil => cases hn
  | cons a L ih =>
    rw [List.nodup_cons] at hnd
    rcases List.mem_cons.mp hn with rfl | hnL
    · have h1 : (decide (n ∉ n :: v)) = false := by simp
      have h2 : (decide (n ∉ v)) = true := by simpa using hnv
      have hfc : L.filter (fun k => decide (k ∉ n :: v)) = L.filter (fun k => decide (k ∉ v)) := by
        apply List.filter_congr
        intro k hk
        have hkn : k ≠ n := fun he => hnd.1 (he ▸ hk)
        simp [List.mem_cons, hkn]
      rw [List.filter_cons, List.filter_cons, h1, h2, hfc]
      simp
    · have han : a ≠ n := fun he => hnd.1 (he ▸ hnL)
      have hsame : (decide (a ∉ n :: v)) = (decide (a ∉ v)) := by
        simp [List.mem_cons, han]
      rw [List.filter_cons, List.filter_cons, hsame]
      by_cases hav : (decide (a ∉ v)) = true
      · rw [if_pos hav, if_pos hav]
        simp only [List.length_cons]
        have := ih hnd.2 hnL
        omega
      · rw [if_neg hav, if_neg hav]
        exact ih hnd.2 hnL

theorem freeKeys_cons_length {t : DistTable} {n : String} {v : List String}
    (hn : n ∈ t.map Prod.fst) (hnv : n ∉ v) :
    (freeKeys t (n :: v)).length + 1 = (freeKeys t v).length := by
  unfold freeKeys
  exact length_filter_notMem_cons (List.nodup_dedup _) (List.mem_dedup.mpr hn) hnv

theorem resolveAux_total {t : DistTable} :
    ∀ {f : Nat} {v : List String} {n : String},
      (freeKeys t v).length < f → resolveAux t f n v ≠ none := by
  intro f
  induction f with
  | zero => intro v n h; exact absurd h (Nat.not_lt_zero _)
  | succ g ih =>
    intro v n h
    rw [resolveAux_succ]
    by_cases hv : n ∈ v
    · rw [if_pos hv]; simp
    · rw [if_neg hv]
      cases hg : pyGet t n with
      | none => simp
      | some info =>
        have hfree : (freeKeys t (n :: v)).length < g := by
          have h1 := freeKeys_cons_length (pyGet_mem_keys hg) hv
          omega
        exact finishTags_ne_none (baseStepOf_ne_none (fun b => ih hfree))

theorem resolveAuxSt_fst {t : DistTable} :
    ∀ (f : Nat) (n : String) (v : List String), (resolveAuxSt t f n v).1 = resolveAux t f n v := by
  intro f
  induction f with
  | zero => intro n v; rfl
  | succ g ih =>
    intro n v
    rw [resolveAux_succ, resolveAuxSt_succ]
    by_cases hv : n ∈ v
    · rw [if_pos hv, if_pos hv]
    · rw [if_neg hv, if_neg hv]
      cases hg : pyGet t n with
      | none => rfl
      | some info =>
        show finishTags n info
            (baseStepOf (fun b => (resolveAuxSt t g b (n :: v)).1) n info) =
          finishTags n info (baseStepOf (fun b => resolveAux t g b (n :: v)) n info)
        have hfun : (fun b => (resolveAuxSt t g b (n :: v)).1) =
            (fun b => resolveAux t g b (n :: v)) := funext (fun b => ih b (n :: v))
        rw [hfun]

theorem resolveAuxSt_snd (t : DistTable) (f : Nat) (n : String) (v : List String) :
    (resolveAuxSt t (f + 1) n v).2 =
      if n ∈ v then v else
        match pyGet t n with
        | none => v
        | some _ => n :: v := by
  rw [resolveAuxSt_succ]
  by_cases hv : n ∈ v
  · rw [if_pos hv, if_pos hv]
  · rw [if_neg hv, if_neg hv]
    cases hg : pyGet t n with
    | none => rfl
    | some info => rfl

/-! ## Base-reference chains and cycle detection -/

theorem baseChain_succ_eq (t : DistTable) (n : String) (i : Nat) :
    baseChain t n (i + 1) = (baseChain t n i).bind (baseSucc t) := rfl

theorem baseChain_isSome_of_succ {t : DistTable} {n : String} {i : Nat}
    (h : (baseChain t n (i + 1)).isSome) : (baseChain t n i).isSome := by
  cases hc : baseChain t n i with
  | none => rw [baseChain_succ_eq, hc] at h; simp at h
  | some s => simp

theorem baseChain_isSome_mono {t : DistTable} {n : String} :
    ∀ {i j : Nat}, i ≤ j → (baseChain t n j).isSome → (baseChain t n i).isSome := by
  intro i j hij
  induction hij with
  | refl => exact id
  | step _ ih => intro h; exact ih (baseChain_isSome_of_succ h)

theorem baseChain_add (t : DistTable) (n : String) (i : Nat) :
    ∀ m : Nat, baseChain t n (i + m) = (baseChain t n i).bind (fun x => baseChain t x m) := by
  intro m
  induction m with
  | zero => cases hc : baseChain t n i <;> simp [baseChain, hc]
  | succ m ih =>
    rw [show i + (m + 1) = (i + m) + 1 by omega, baseChain_succ_eq, ih]
    cases hc : baseChain t n i with
    | none => simp
    | some x => simp [baseChain_succ_eq]

theorem baseChain_shift {t : DistTable} {n s : String} (h : baseSucc t n = some s) :
    ∀ i : Nat, baseChain t n (i + 1) = baseChain t s i := by
  intro i
  induction i with
  | zero => simp [baseChain, h]
  | succ i ih => rw [baseChain_succ_eq, ih, baseChain_succ_eq]

theorem baseChain_period {t : DistTable} {n : String} {i p : Nat}
    (hp : baseChain t n (i + p) = baseChain t n i) (m : Nat) :
    baseChain t n (i + m + p) = baseChain t n (i + m) := by
  rw [show i + m + p = (i + p) + m by omega, baseChain_add t n (i + p) m, hp,
    ← baseChain_add t n i m]

theorem baseChain_all_isSome {t : DistTable} {n : String} {i j : Nat} (hij : i < j)
    (hsome : (baseChain t n i).isSome) (heq : baseChain t n i = baseChain t n j) :
    ∀ k, (baseChain t n k).isSome := by
  obtain ⟨p, hp, rfl⟩ : ∃ p, 0 < p ∧ j = i + p := ⟨j - i, by omega, by omega⟩
  have hper : ∀ m, baseChain t n (i + m + p) = baseChain t n (i + m) :=
    baseChain_period heq.symm
  have hupto : ∀ k, k ≤ i + p → (baseChain t n k).isSome := by
    intro k hk
    exact baseChain_isSome_mono hk (heq ▸ hsome)
  intro k
  induction k using Nat.strong_induction_on with
  | _ k ih =>
    by_cases hk : k ≤ i + p
    · exact hupto k hk
    · have hm : k = i + (k - i - p) + p := by omega
      rw [hm, hper (k - i - p)]
      exact ih (i + (k - i - p)) (by omega)

theorem resolveAux_circular {t : DistTable} :
    ∀ {f : Nat} {n : String} {v : List String},
      (freeKeys t v).length < f →
      (∀ i, (baseChain t n i).isSome) →
      ∃ e, resolveAux t f n v = some (.err e) ∧
        ∃ c k, baseChain t n k = some c ∧ e.core = .circular c := by
  intro f
  induction f with
  | zero => intro n v h _; exact absurd h (Nat.not_lt_zero _)
  | succ g ih =>
    intro n v hfree hchain
    rw [resolveAux_succ]
    by_cases hv : n ∈ v
    · rw [if_pos hv]
      exact ⟨.circular n, rfl, n, 0, rfl, rfl⟩
    · rw [if_neg hv]
      have h1 : (baseChain t n 1).isSome := hchain 1
      have h1' : (baseSucc t n).isSome := by
        simpa [baseChain_succ_eq, baseChain] using h1
      obtain ⟨s, hs⟩ := Option.isSome_iff_exists.mp h1'
      have hg : ∃ info, pyGet t n = some info ∧ baseNameOf info = some s := by
        unfold baseSucc at hs
        cases hpg : pyGet t n with
        | none => rw [hpg] at hs; cases hs
        | some info => rw [hpg] at hs; exact ⟨info, rfl, hs⟩
      obtain ⟨info, hpg, hbn⟩ := hg
      rw [hpg]
      have hchain_s : ∀ i, (baseChain t s i).isSome := by
        intro i
        have hh := hchain (i + 1)
        rwa [baseChain_shift hs i] at hh
      have hfree' : (freeKeys t (n :: v)).length < g := by
        have hfc := freeKeys_cons_length (pyGet_mem_keys hpg) hv
        omega
      obtain ⟨e', he', c, k, hck, hcore⟩ := ih hfree' hchain_s
      refine ⟨.baseContext s n e', ?_, c, k + 1, ?_, ?_⟩
      · simp only [baseStepOf_of_baseName hbn, he']
        rfl
      · rw [baseChain_shift hs k]; exact hck
      · exact hcore

/-! ## Selector lemmas -/

theorem contains_iff_mem {l : List String} {x : String} : l.contains x = true ↔ x ∈ l :=
  ⟨fun h => List.mem_of_elem_eq_true h, fun h => List.elem_eq_true_of_mem h⟩

theorem mem_buildCategories {active : List String} {c : String} :
    c ∈ buildCategories active ↔
      ∃ tag ∈ active, pyEndsWith tag ".all" = true ∧ tag ≠ "lambdacomponents.all" ∧
        c = pyRsplitDot tag := by
  have haux : ∀ (l acc : List String),
      c ∈ l.foldl
        (fun acc tag =>
          if pyEndsWith tag ".all" && !(tag == "lambdacomponents.all") then
            let category := pyRsplitDot tag
            if acc.contains category then acc else acc ++ [category]
          else acc) acc ↔
      c ∈ acc ∨ ∃ tag ∈ l, pyEndsWith tag ".all" = true ∧ tag ≠ "lambdacomponents.all" ∧
        c = pyRsplitDot tag := by
    intro l
    induction l with
    | nil => intro acc; simp
    | cons a l ih =>
      intro acc
      rw [List.foldl_cons, ih]
      by_cases h1 : pyEndsWith a ".all" = true
      · by_cases h2 : (a == "lambdacomponents.all") = true
        · have ha : (pyEndsWith a ".all" && !(a == "lambdacomponents.all")) = false := by
            simp [h1, h2]
          rw [ha]
          have ha2 : a = "lambdacomponents.all" := by simpa using h2
          simp only [if_false, List.mem_cons, Bool.false_eq_true]
          constructor
          · rintro (hc | ⟨tag, hmem, hprops⟩)
            · exact Or.inl hc
            · exact Or.inr ⟨tag, Or.inr hmem, hprops⟩
          · rintro (hc | ⟨tag, (rfl | hmem), he, hne, hr⟩)
            · exact Or.inl hc
            · exact absurd ha2 hne
            · exact Or.inr ⟨tag, hmem, he, hne, hr⟩
        · have ha : (pyEndsWith a ".all" && !(a == "lambdacomponents.all")) = true := by
            simp [h1, h2]
          rw [ha]
          have ha2 : a ≠ "lambdacomponents.all" := by simpa using h2
          simp only [if_true]
          by_cases hc2 : acc.contains (pyRsplitDot a) = true
          · simp only [hc2, if_true]
            have hins : pyRsplitDot a ∈ acc := contains_iff_mem.mp hc2
            constructor
            · rintro (hc | ⟨tag, hmem, hprops⟩)
              · exact Or.inl hc
              · exact Or.inr ⟨tag, List.mem_cons_of_mem a hmem, hprops⟩
            · rintro (hc | ⟨tag, hmem, he, hne, hr⟩)
              · exact Or.inl hc
              · rcases List.mem_cons.mp hmem with rfl | hmem'
                · exact Or.inl (hr ▸ hins)
                · exact Or.inr ⟨tag, hmem', he, hne, hr⟩
          · simp only [hc2, if_false, List.mem_append, List.mem_singleton,
              Bool.false_eq_true]
            constructor
            · rintro ((hc | hc) | ⟨tag, hmem, hprops⟩)
              · exact Or.inl hc
              · exact Or.inr ⟨a, List.mem_cons_self a l, h1, ha2, hc⟩
              · exact Or.inr ⟨tag, List.mem_cons_of_mem a hmem, hprops⟩
            · rintro (hc | ⟨tag, hmem, he, hne, hr⟩)
              · exact Or.inl (Or.inl hc)
              · rcases List.mem_cons.mp hmem with rfl | hmem'
                · exact Or.inl (Or.inr hr)
                · exact Or.inr ⟨tag, hmem', he, hne, hr⟩
      · have ha : (pyEndsWith a ".all" && !(a == "lambdacomponents.all")) = false := by
          simp [h1]
        rw [ha]
        simp only [if_false, Bool.false_eq_true]
        constructor
        · rintro (hc | ⟨tag, hmem, hprops⟩)
          · exact Or.inl hc
          · exact Or.inr ⟨tag, List.mem_cons_of_mem a hmem, hprops⟩
        · rintro (hc | ⟨tag, hmem, he, hne, hr⟩)
          · exact Or.inl hc
          · rcases List.mem_cons.mp hmem with rfl | hmem'
            · exact absurd he h1
            · exact Or.inr ⟨tag, hmem', he, hne, hr⟩
  have := haux active []
  simpa [buildCategories] using this

theorem includedByTags_iff {active categories : List String} {k : String} :
    includedByTags active categories k = true ↔
      k ∈ active ∨ "lambdacomponents.all" ∈ active ∨
        ∃ cat ∈ categories, pyStartsWith k (cat ++ ".") = true ∧
          pyEndsWith k ".all" = false := by
  unfold includedByTags
  by_cases h1 : active.contains k = true
  · simp [h1, contains_iff_mem.mp h1]
  · rw [if_neg (by simpa using h1)]
    have h1' : k ∉ active := fun hm => h1 (contains_iff_mem.mpr hm)
    by_cases h2 : active.contains "lambdacomponents.all" = true
    · simp [h2, contains_iff_mem.mp h2, h1']
    · rw [if_neg (by simpa using h2)]
      have h2' : "lambdacomponents.all" ∉ active := fun hm => h2 (contains_iff_mem.mpr hm)
      simp only [List.any_eq_true, h1', h2', false_or]
      constructor
      · rintro ⟨cat, hmem, hcond⟩
        rw [Bool.and_eq_true] at hcond
        exact ⟨cat, hmem, hcond.1, by simpa using hcond.2⟩
      · rintro ⟨cat, hmem, hstart, hend⟩
        exact ⟨cat, hmem, by simp [hstart, hend]⟩

/-! ## Module-set lemmas -/

theorem mem_setAddStr {acc : List String} {s y : String} :
    y ∈ setAddStr acc s ↔ y ∈ acc ∨ y = s := by
  unfold setAddStr
  by_cases h : acc.contains s = true
  · rw [if_pos h]
    have hs : s ∈ acc := contains_iff_mem.mp h
    constructor
    · exact Or.inl
    · rintro (hy | rfl)
      · exact hy
      · exact hs
  · rw [if_neg (by simpa using h)]
    simp [List.mem_append]

theorem nodup_setAddStr {acc : List String} {s : String} (h : acc.Nodup) :
    (setAddStr acc s).Nodup := by
  unfold setAddStr
  by_cases hc : acc.contains s = true
  · rw [if_pos hc]; exact h
  · rw [if_neg (by simpa using hc)]
    have hs : s ∉ acc := fun hm => hc (contains_iff_mem.mpr hm)
    simp [List.nodup_append, h, hs]

theorem mem_foldl_setAddStr {y : String} :
    ∀ (l acc : List String), y ∈ l.foldl setAddStr acc ↔ y ∈ acc ∨ y ∈ l := by
  intro l
  induction l with
  | nil => intro acc; simp
  | cons a l ih =>
    intro acc
    rw [List.foldl_cons, ih]
    rw [mem_setAddStr]
    simp only [List.mem_cons]
    tauto

theorem nodup_foldl_setAddStr :
    ∀ (l acc : List String), acc.Nodup → (l.foldl setAddStr acc).Nodup := by
  intro l
  induction l with
  | nil => intro acc h; exact h
  | cons a l ih =>
    intro acc h
    rw [List.foldl_cons]
    exact ih _ (nodup_setAddStr h)

theorem mem_modulesStep {deps : DepMap} {acc : List String} {tag y : String} :
    (y ∈
      match pyGetDep deps tag with
      | some (.list l) => l.foldl setAddStr acc
      | some (.str s) => setAddStr acc s
      | _ => acc) ↔
      y ∈ acc ∨ ∃ v, pyGetDep deps tag = some v ∧ y ∈ v.modules := by
  cases hpd : pyGetDep deps tag with
  | none => simp [hpd]
  | some v =>
    cases v with
    | str s =>
      rw [mem_setAddStr]
      simp [hpd, DepVal.modules]
    | list l =>
      rw [mem_foldl_setAddStr]
      simp [hpd, DepVal.modules]
    | other => simp [hpd, DepVal.modules]

theorem nodup_modulesStep {deps : DepMap} {acc : List String} {tag : String}
    (h : acc.Nodup) :
    (match pyGetDep deps tag with
      | some (.list l) => l.foldl setAddStr acc
      | some (.str s) => setAddStr acc s
      | _ => acc).Nodup := by
  cases hpd : pyGetDep deps tag with
  | none => exact h
  | some v =>
    cases v with
    | str s => exact nodup_setAddStr h
    | list l => exact nodup_foldl_setAddStr l acc h
    | other => exact h

theorem mem_modulesToAdd_aux {deps : DepMap} {y : String} :
    ∀ (comps acc : List String),
      y ∈ comps.foldl
        (fun acc tag =>
          match pyGetDep deps tag with
          | some (.list l) => l.foldl setAddStr acc
          | some (.str s) => setAddStr acc s
          | _ => acc) acc ↔
      y ∈ acc ∨ ∃ tag ∈ comps, ∃ v, pyGetDep deps tag = some v ∧ y ∈ v.modules := by
  intro comps
  induction comps with
  | nil => intro acc; simp
  | cons a comps ih =>
    intro acc
    rw [List.foldl_cons, ih]
    rw [mem_modulesStep]
    simp only [List.mem_cons]
    constructor
    · rintro ((hy | hv) | ⟨tag, hmem, hv⟩)
      · exact Or.inl hy
      · exact Or.inr ⟨a, Or.inl rfl, hv⟩
      · exact Or.inr ⟨tag, Or.inr hmem, hv⟩
    · rintro (hy | ⟨tag, (rfl | hmem), hv⟩)
      · exact Or.inl (Or.inl hy)
      · exact Or.inl (Or.inr hv)
      · exact Or.inr ⟨tag, hmem, hv⟩

theorem mem_modulesToAdd {active : List String} {deps : DepMap} {y : String} :
    y ∈ modulesToAdd active deps ↔
      ∃ tag ∈ resolve_components_by_tags active deps, ∃ v,
        pyGetDep deps tag = some v ∧ y ∈ v.modules := by
  unfold modulesToAdd
  rw [mem_modulesToAdd_aux]
  simp

theorem nodup_modulesToAdd (active : List String) (deps : DepMap) :
    (modulesToAdd active deps).Nodup := by
  unfold modulesToAdd
  have haux : ∀ (comps acc : List String), acc.Nodup →
      (comps.foldl
        (fun acc tag =>
          match pyGetDep deps tag with
          | some (.list l) => l.foldl setAddStr acc
          | some (.str s) => setAddStr acc s
          | _ => acc) acc).Nodup := by
    intro comps
    induction comps with
    | nil => intro acc h; exact h
    | cons a comps ih =>
      intro acc h
      rw [List.foldl_cons]
      exact ih _ (nodup_modulesStep h)
  exact haux _ [] List.nodup_nil

/-! ## Association-list lookup lemmas -/

theorem pyGetDep_eq_of_mem {deps : DepMap} (hnd : (deps.map Prod.fst).Nodup) {k : String}
    {v : DepVal} (hm : (k, v) ∈ deps) : pyGetDep deps k = some v := by
  induction deps with
  | nil => cases hm
  | cons p rest ih =>
    rw [List.map_cons, List.nodup_cons] at hnd
    rcases List.mem_cons.mp hm with rfl | hm'
    · unfold pyGetDep
      rw [List.find?_cons_of_pos _ (by simp)]
      rfl
    · have hk : k ∈ rest.map Prod.fst := List.mem_map_of_mem Prod.fst hm'
      have hpk : (p.1 == k) = false := by
        simp only [beq_eq_false_iff_ne, ne_eq]
        intro he
        exact hnd.1 (he ▸ hk)
      unfold pyGetDep
      rw [List.find?_cons_of_neg _ (by simp [hpk])]
      exact ih hnd.2 hm'

theorem pyGetDep_mem {deps : DepMap} {k : String} {v : DepVal}
    (h : pyGetDep deps k = some v) : (k, v) ∈ deps := by
  unfold pyGetDep at h
  cases hf : deps.find? (fun q => q.1 == k) with
  | none => rw [hf] at h; cases h
  | some q =>
    rw [hf] at h
    have hq := List.find?_some hf
    have hqm := List.mem_of_find?_eq_some hf
    have hqk : q.1 = k := by simpa using hq
    have hv : q.2 = v := by injection h
    have : q = (k, v) := Prod.ext hqk hv
    exact this ▸ hqm

theorem pyGetDep_isSome_of_mem_keys {deps : DepMap} {k : String}
    (h : k ∈ deps.map Prod.fst) : ∃ v, pyGetDep deps k = some v := by
  unfold pyGetDep
  cases hf : deps.find? (fun q => q.1 == k) with
  | some q => exact ⟨q.2, rfl⟩
  | none =>
    rw [List.find?_eq_none] at hf
    obtain ⟨p, hp, hpk⟩ := List.mem_map.mp h
    exact absurd (by simp [hpk]) (hf p hp)

/-! ## Remaining helper lemmas -/

theorem freeKeys_nil_le (t : DistTable) : (freeKeys t []).length ≤ t.length := by
  unfold freeKeys
  calc ((t.map Prod.fst).dedup.filter (fun k => decide (k ∉ ([] : List String)))).length
      ≤ (t.map Prod.fst).dedup.length := List.length_filter_le _ _
    _ ≤ (t.map Prod.fst).length := (List.dedup_sublist _).length_le
    _ = t.length := List.length_map _ _

theorem pyGet_eq_none_of_not_key {t : DistTable} {n : String} (h : n ∉ t.map Prod.fst) :
    pyGet t n = none := by
  unfold pyGet lookupEntry
  cases hf : t.find? (fun p => p.1 == n) with
  | none => rfl
  | some q =>
    have hq := List.find?_some hf
    have hqm := List.mem_of_find?_eq_some hf
    have hqn : q.1 = n := by simpa using hq
    exact absurd (hqn ▸ List.mem_map_of_mem Prod.fst hqm) h

theorem pyGet_eq_none_of_entry_none {t : DistTable} {n : String}
    (h : lookupEntry t n = some none) : pyGet t n = none := by
  unfold pyGet
  rw [h]

theorem baseNameOf_eq_none_of_noTruthy {info : DistInfo} (h : noTruthyBase info = true) :
    baseNameOf info = none := by
  obtain ⟨ob, otags⟩ := info
  cases ob with
  | none => rfl
  | some pb =>
    cases pb with
    | str s =>
      simp only [noTruthyBase, BaseVal.pyTruthy] at h
      simp only [baseNameOf]
      rw [if_pos (by simpa using h)]
    | otherTruthy => simp [noTruthyBase, BaseVal.pyTruthy] at h
    | otherFalsy => rfl

theorem resolve_build_tags_unfold {t : DistTable} {n : String} {info : DistInfo}
    (hg : pyGet t n = some info) :
    resolve_build_tags n t =
      finishTags n info (baseStepOf (fun b => resolveAux t t.length b [n]) n info) := by
  unfold resolve_build_tags
  rw [resolveAux_succ, if_neg (List.not_mem_nil n), hg]

/-! ## Claim C8 -/

/-- Claim C8: for every distribution table and every name that is not a key
of the table, `resolve_build_tags` raises the not-found
`DistributionError`; it never returns a tag list for a missing name. -/
theorem c8_missing_distribution_raises (t : DistTable) (n : String)
    (h : n ∉ t.map Prod.fst) :
    resolve_build_tags n t = some (.err (.notFound n)) := by
  unfold resolve_build_tags
  rw [resolveAux_succ, if_neg (List.not_mem_nil n), pyGet_eq_none_of_not_key h]

/-- Witness for C8 at the concrete input of the claim:
`resolve_build_tags("ghost", {})`. -/
theorem c8_witness :
    resolve_build_tags "ghost" [] = some (.err (.notFound "ghost")) :=
  c8_missing_distribution_raises [] "ghost" (by simp)

/-! ## Claim C10 -/

/-- Claim C10: a table key whose mapped body is `None` (an empty YAML body)
makes `resolve_build_tags` raise exactly the not-found error of an absent
key: at the public interface the two are indistinguishable. -/
theorem c10_null_body_is_not_found (t : DistTable) (n : String)
    (h : lookupEntry t n = some none) :
    resolve_build_tags n t = some (.err (.notFound n)) := by
  unfold resolve_build_tags
  rw [resolveAux_succ, if_neg (List.not_mem_nil n), pyGet_eq_none_of_entry_none h]

/-- Witness for C10: a one-entry table whose single body is empty. -/
theorem c10_witness :
    resolve_build_tags "empty" [("empty", none)] = some (.err (.notFound "empty")) :=
  c10_null_body_is_not_found [("empty", none)] "empty" (by decide)

/-! ## Claim C9 -/

/-- Claim C9: on every finite table and name, `resolve_build_tags`
terminates with a result (a tag list or an error): call-stack fuel
`t.length + 1` — one more than the number of table entries — is never
exhausted, because each recursive step consumes one unvisited key and a
revisit raises immediately. -/
theorem c9_resolution_terminates (t : DistTable) (n : String) :
    ∃ r : DResult, resolve_build_tags n t = some r := by
  unfold resolve_build_tags
  cases hr : resolveAux t (t.length + 1) n [] with
  | none =>
    exact absurd hr (resolveAux_total (by have := freeKeys_nil_le t; omega))
  | some r => exact ⟨r, rfl⟩

/-! ## Claim C3 -/

/-- Claim C3: whenever the `base` references reachable from the requested
name form a cycle (the chain of bases revisits a value), `resolve_build_tags`
raises a `DistributionError` whose innermost message is the circular-
dependency error naming a distribution on that base chain; no tag list is
returned. -/
theorem c3_cycle_raises_circular (t : DistTable) (n : String)
    (h : ∃ i j, i < j ∧ (baseChain t n i).isSome ∧ baseChain t n i = baseChain t n j) :
    ∃ e, resolve_build_tags n t = some (.err e) ∧
      ∃ c k, baseChain t n k = some c ∧ e.core = .circular c := by
  obtain ⟨i, j, hij, hsome, heq⟩ := h
  exact resolveAux_circular (by have := freeKeys_nil_le t; omega)
    (baseChain_all_isSome hij hsome heq)

/-- Witness for C3 at the concrete two-element cycle of the claim:
`{a: base=b, b: base=a}` resolved at `"a"`. -/
theorem c3_witness :
    ∃ e, resolve_build_tags "a"
        [("a", some ⟨some (.str "b"), none⟩), ("b", some ⟨some (.str "a"), none⟩)] =
        some (.err e) ∧
      ∃ c k, baseChain
          [("a", some ⟨some (.str "b"), none⟩), ("b", some ⟨some (.str "a"), none⟩)]
          "a" k = some c ∧ e.core = .circular c :=
  c3_cycle_raises_circular _ _ ⟨0, 2, by omega, by decide, by decide⟩

/-! ## Claim C2 -/

/-- Counterexample to claim C2 as stated: in the table
`{d: {base: "", buildtags: [x]}, "": {buildtags: [y]}}` the distribution `d`
has the string `""` as its `base` field, `""` is itself a resolvable
distribution with tags `["y"]`, and resolution of `d` succeeds — yet the
result is `["x"]`, not the sorted union `["x", "y"]` the claim demands,
because the code tests the base for Python truthiness and silently skips an
empty-string base. -/
theorem c2_counterexample :
    pyGet [("d", some ⟨some (.str ""), some (.list ["x"])⟩),
           ("", some ⟨none, some (.list ["y"])⟩)] "d" =
      some ⟨some (.str ""), some (.list ["x"])⟩ ∧
    resolve_build_tags ""
        [("d", some ⟨some (.str ""), some (.list ["x"])⟩),
         ("", some ⟨none, some (.list ["y"])⟩)] = some (.ok ["y"]) ∧
    resolve_build_tags "d"
        [("d", some ⟨some (.str ""), some (.list ["x"])⟩),
         ("", some ⟨none, some (.list ["y"])⟩)] = some (.ok ["x"]) ∧
    (["x"] : List String) ≠ pySortedSet (["y"] ++ ["x"]) := by
  refine ⟨rfl, rfl, rfl, ?_⟩
  decide

/-- Claim C2 (amended): for every table and distribution on which resolution
succeeds, if the entry has no truthy string `base` the result is the sorted
deduplicated list of its own `buildtags`, and if the entry's `base` is a
non-empty string `b` the result is the sorted deduplicated union of
`resolve_build_tags(b)` and its own `buildtags`, through arbitrary chain
depth. ("Sorted deduplicated" is stated explicitly: the result is sorted by
the string order, duplicate-free, and carries exactly the union of the two
tag sets.) -/
theorem c2_inheritance_union (t : DistTable) (d : String) (info : DistInfo)
    (r : List String) (hinfo : pyGet t d = some info)
    (hok : resolve_build_tags d t = some (.ok r)) :
    ∃ own, ownTagsOf info = some own ∧
      List.Sorted (fun a b => pyStrLe a b = true) r ∧ r.Nodup ∧
      (baseNameOf info = none → ∀ x, x ∈ r ↔ x ∈ own) ∧
      (∀ b, baseNameOf info = some b →
        ∃ rb, resolve_build_tags b t = some (.ok rb) ∧
          ∀ x, x ∈ r ↔ x ∈ rb ∨ x ∈ own) := by
  rw [resolve_build_tags_unfold hinfo] at hok
  rw [finishTags_ok_iff] at hok
  obtain ⟨bt, own, hbs, hown, hr⟩ := hok
  refine ⟨own, hown, hr ▸ sorted_pySortedSet _, hr ▸ nodup_pySortedSet _, ?_, ?_⟩
  · intro hnone x
    rcases baseStepOf_eq_ok hbs with ⟨_, rfl⟩ | ⟨b, hbn, _⟩
    · rw [hr, mem_pySortedSet]
      simp
    · rw [hnone] at hbn; cases hbn
  · intro b hb
    rcases baseStepOf_eq_ok hbs with ⟨hnb, rfl⟩ | ⟨b', hbn, hrec⟩
    · rw [baseNameOf_eq_none_of_noTruthy hnb] at hb; cases hb
    · have hbb : b' = b := by rw [hbn] at hb; injection hb
      subst hbb
      have h1 : resolveAux t t.length b' [] = some (.ok bt) :=
        resolveAux_shrink (by simp) hrec
      have h2 : resolve_build_tags b' t = some (.ok bt) :=
        resolveAux_mono (Nat.le_succ _) h1
      refine ⟨bt, h2, fun x => ?_⟩
      rw [hr, mem_pySortedSet, List.mem_append]

/-- Witness for the amended C2 on a two-level inheritance chain. -/
theorem c2_witness :
    ∃ own, ownTagsOf ⟨some (.str "base"), some (.list ["tag2"])⟩ = some own ∧
      List.Sorted (fun a b => pyStrLe a b = true) ["tag1", "tag2"] ∧
      (["tag1", "tag2"] : List String).Nodup ∧
      (baseNameOf ⟨some (.str "base"), some (.list ["tag2"])⟩ = none →
        ∀ x, x ∈ (["tag1", "tag2"] : List String) ↔ x ∈ own) ∧
      (∀ b, baseNameOf ⟨some (.str "base"), some (.list ["tag2"])⟩ = some b →
        ∃ rb, resolve_build_tags b
            [("base", some ⟨none, some (.list ["tag1"])⟩),
             ("child", some ⟨some (.str "base"), some (.list ["tag2"])⟩)] =
            some (.ok rb) ∧
          ∀ x, x ∈ (["tag1", "tag2"] : List String) ↔ x ∈ rb ∨ x ∈ own) :=
  c2_inheritance_union
    [("base", some ⟨none, some (.list ["tag1"])⟩),
     ("child", some ⟨some (.str "base"), some (.list ["tag2"])⟩)]
    "child" ⟨some (.str "base"), some (.list ["tag2"])⟩ ["tag1", "tag2"]
    (by decide) (by decide)

/-! ## Claim C1 -/

/-- Counterexample to claim C1 as stated. With active tags
`["foo.all", "lambdacomponents.connector.all"]` and mapping keys
`bar.x.y`, `lambdacomponents.connector.x.all`, `foo.q.r`: the claim's rules
include `bar.x.y` (a literal `<domain>.all` tag, `foo.all`, is active) and
`lambdacomponents.connector.x.all` (its first two segments equal the
category and its third segment `x` is not `all`), but the code returns only
`["foo.q.r"]` — the global wildcard is the hard-coded string
`lambdacomponents.all` only, every other `*.all` tag works as a prefix
category filter, and keys ending in `.all` are never matched by it. -/
theorem c1_counterexample :
    specIncluded ["foo.all", "lambdacomponents.connector.all"] "bar.x.y" = true ∧
    specIncluded ["foo.all", "lambdacomponents.connector.all"]
      "lambdacomponents.connector.x.all" = true ∧
    resolve_components_by_tags ["foo.all", "lambdacomponents.connector.all"]
      [("bar.x.y", .list ["m1"]), ("lambdacomponents.connector.x.all", .list ["m2"]),
       ("foo.q.r", .list ["m3"])] = ["foo.q.r"] ∧
    "bar.x.y" ∉ resolve_components_by_tags ["foo.all", "lambdacomponents.connector.all"]
      [("bar.x.y", .list ["m1"]), ("lambdacomponents.connector.x.all", .list ["m2"]),
       ("foo.q.r", .list ["m3"])] := by
  refine ⟨rfl, rfl, rfl, ?_⟩
  decide

/-- Claim C1 (amended): `resolve_components_by_tags` returns exactly the
mapping keys `k` satisfying at least one of the non-exclusive rules actually
implemented: (1) direct match, `k` is an active tag; (2) global wildcard,
the literal tag `lambdacomponents.all` is active; (3) category wildcard,
some active tag ends in `.all`, differs from `lambdacomponents.all`, its
prefix before the final dot followed by `.` is a prefix of `k`, and `k`
itself does not end in `.all`. -/
theorem c1_selector_characterization (active : List String) (deps : DepMap) (k : String) :
    k ∈ resolve_components_by_tags active deps ↔
      k ∈ deps.map Prod.fst ∧
        (k ∈ active ∨ "lambdacomponents.all" ∈ active ∨
          ∃ tag ∈ active, pyEndsWith tag ".all" = true ∧ tag ≠ "lambdacomponents.all" ∧
            pyStartsWith k (pyRsplitDot tag ++ ".") = true ∧
            pyEndsWith k ".all" = false) := by
  unfold resolve_components_by_tags
  rw [List.mem_filter, includedByTags_iff]
  refine and_congr_right (fun _ => or_congr_right (or_congr_right ?_))
  constructor
  · rintro ⟨cat, hcat, hstart, hend⟩
    obtain ⟨tag, htag, he, hne, rfl⟩ := mem_buildCategories.mp hcat
    exact ⟨tag, htag, he, hne, hstart, hend⟩
  · rintro ⟨tag, htag, he, hne, hstart, hend⟩
    exact ⟨pyRsplitDot tag, mem_buildCategories.mpr ⟨tag, htag, he, hne, rfl⟩,
      hstart, hend⟩

/-! ## Claim C7 -/

/-- Claim C7: for every active tag list and every well-formed dependency
mapping (unique keys, every value a module string or a list of module
strings), the computed `modules_to_add` set is duplicate-free and a module
belongs to it exactly when some component included by
`resolve_components_by_tags` declares it — the deduplicated union over the
included components, no more and no less. -/
theorem c7_dependency_union (active : List String) (deps : DepMap)
    (hnd : (deps.map Prod.fst).Nodup)
    (hwf : ∀ p ∈ deps, p.2 ≠ DepVal.other) :
    (modulesToAdd active deps).Nodup ∧
      ∀ m, m ∈ modulesToAdd active deps ↔
        ∃ k v, (k, v) ∈ deps ∧ k ∈ resolve_components_by_tags active deps ∧
          m ∈ v.modules := by
  refine ⟨nodup_modulesToAdd active deps, ?_⟩
  intro m
  rw [mem_modulesToAdd]
  constructor
  · rintro ⟨tag, htag, v, hv, hm⟩
    exact ⟨tag, v, pyGetDep_mem hv, htag, hm⟩
  · rintro ⟨k, v, hkv, hk, hm⟩
    exact ⟨k, hk, v, pyGetDep_eq_of_mem hnd hkv, hm⟩

/-- Witness for C7 at the concrete example of the claim:
`{c1: [modA], c2: [modA, modB]}` with both components active yields exactly
the module set `{modA, modB}`. -/
theorem c7_witness :
    (modulesToAdd ["c1", "c2"] [("c1", .list ["modA"]), ("c2", .list ["modA", "modB"])]).Nodup ∧
      ∀ m, m ∈ modulesToAdd ["c1", "c2"]
            [("c1", .list ["modA"]), ("c2", .list ["modA", "modB"])] ↔
        ∃ k v, (k, v) ∈ ([("c1", .list ["modA"]), ("c2", .list ["modA", "modB"])] : DepMap) ∧
          k ∈ resolve_components_by_tags ["c1", "c2"]
            [("c1", .list ["modA"]), ("c2", .list ["modA", "modB"])] ∧
          m ∈ v.modules :=
  c7_dependency_union ["c1", "c2"]
    [("c1", .list ["modA"]), ("c2", .list ["modA", "modB"])]
    (by decide) (by decide)

/-! ## Claim C4 -/

/-- Counterexample to claim C4 as stated: a present file whose root parses
to a truthy non-mapping value (for example a non-empty YAML list) is *not*
rejected by `load_distributions` — the `if not distributions_data` check
only rejects falsy content, so the non-mapping root is returned unchanged
and no `DistributionError` is raised at load time. -/
theorem c4_counterexample :
    load_distributions (.present (some (.nonMap true))) = .ok (.nonMap true) ∧
    ∀ e, load_distributions (.present (some (.nonMap true))) ≠ .error e :=
  ⟨rfl, fun _ h => Except.noConfusion h⟩

/-- Claim C4 (amended): `load_distributions` raises before any resolution
when the file is absent or its parsed content is Python-falsy (empty
content, or an empty mapping, or a falsy non-mapping root); a truthy root —
mapping or not — is returned as loaded. `load_component_dependencies` never
raises: a missing file, empty content, a non-mapping root, a missing
`dependencies` key, or a non-mapping `dependencies` value all yield the
empty mapping, so the build proceeds with zero dependencies. -/
theorem c4_load_asymmetry :
    (∃ e, load_distributions .absent = .error e) ∧
    (∃ e, load_distributions (.present none) = .error e) ∧
    (∀ doc, doc.pyTruthy = false →
      ∃ e, load_distributions (.present (some doc)) = .error e) ∧
    (∀ doc, load_distributions (.present (some doc)) = .ok doc ↔ doc.pyTruthy = true) ∧
    load_component_dependencies .absent = [] ∧
    load_component_dependencies (.present none) = [] ∧
    load_component_dependencies (.present (some .nonMapTruthy)) = [] ∧
    load_component_dependencies (.present (some .nonMapFalsy)) = [] ∧
    (∀ entries, pyGetRoot entries "dependencies" = none →
      load_component_dependencies (.present (some (.map entries))) = []) ∧
    (∀ entries, pyGetRoot entries "dependencies" = some .nonDict →
      load_component_dependencies (.present (some (.map entries))) = []) := by
  refine ⟨⟨.fileNotFound, rfl⟩, ⟨.emptyOrInvalid, rfl⟩, ?_, ?_, rfl, rfl, rfl, rfl, ?_, ?_⟩
  · intro doc hfalsy
    refine ⟨.emptyOrInvalid, ?_⟩
    simp only [load_distributions]
    rw [if_neg (by simp [hfalsy])]
  · intro doc
    simp only [load_distributions]
    by_cases h : doc.pyTruthy = true
    · simp [h]
    · rw [if_neg h]
      simp [h]
  · intro entries h
    simp only [load_component_dependencies]
    by_cases he : entries.isEmpty = true
    · rw [if_pos he]
    · rw [if_neg he, h]
  · intro entries h
    simp only [load_component_dependencies]
    by_cases he : entries.isEmpty = true
    · rw [if_pos he]
    · rw [if_neg he, h]

/-! ## Claim C5 -/

/-- Counterexample to claim C5 as stated: calling `resolve_build_tags` with
an explicitly supplied `visited` set mutates that set — the code runs
`visited.add(distribution_name)` on the caller's object itself (only the
recursive calls receive a copy). Here a call on the table `{a: {}}` with
`visited = ∅` leaves the caller's set as `{a}`, not unchanged. -/
theorem c5_counterexample :
    (resolve_build_tagsSt "a" [("a", some ⟨none, none⟩)] []).2 = ["a"] ∧
    (["a"] : List String) ≠ [] := by
  refine ⟨rfl, ?_⟩
  decide

/-- Claim C5 (amended): the table is never written; the returned value is a
pure function of `(name, table, visited)` — it equals the state-free
rendering `resolveAux` — and recursive calls mutate only copies, so the one
visible effect on the caller-supplied `visited` set is that the requested
name itself is added to it, exactly when resolution passes the
cycle-membership and existence checks; names visited inside the recursive
descent never leak into it. -/
theorem c5_visited_mutation (t : DistTable) (n : String) (v : List String) :
    (resolve_build_tagsSt n t v).1 = resolveAux t (t.length + 1) n v ∧
    (resolve_build_tagsSt n t v).2 =
      (if n ∈ v then v
       else match pyGet t n with
            | none => v
            | some _ => n :: v) :=
  ⟨resolveAuxSt_fst (t.length + 1) n v, resolveAuxSt_snd t t.length n v⟩

/-! ## Claim C6 -/

/-- Counterexample to claim C6 as stated: an entry whose `base` field holds
a falsy non-string value (for example `0`, `[]`, or an explicit `null`) does
*not* raise — the `if base_name:` truthiness test skips the whole base
branch before the `isinstance` check runs, and a tag list is returned. -/
theorem c6_counterexample :
    resolve_build_tags "a" [("a", some ⟨some .otherFalsy, some (.list ["t"])⟩)] =
      some (.ok ["t"]) := by
  rfl

/-- Claim C6 (amended): a *truthy* non-string `base` raises the
invalid-base malformed-config error; a non-list `buildtags` value always
makes resolution raise some `DistributionError`, and when no truthy base
precedes it the error is precisely the invalid-buildtags malformed-config
error; in these cases no tag list is returned. -/
theorem c6_type_validation (t : DistTable) (n : String) (info : DistInfo)
    (hg : pyGet t n = some info) :
    (info.base = some .otherTruthy →
      resolve_build_tags n t = some (.err (.invalidBase n))) ∧
    (info.buildtags = some .other →
      (∃ e, resolve_build_tags n t = some (.err e)) ∧
      (noTruthyBase info = true →
        resolve_build_tags n t = some (.err (.invalidTags n)))) := by
  constructor
  · intro hb
    rw [resolve_build_tags_unfold hg, baseStepOf_of_otherTruthy hb]
    rfl
  · intro hbt
    constructor
    · rw [resolve_build_tags_unfold hg]
      have hne : baseStepOf (fun b => resolveAux t t.length b [n]) n info ≠ none := by
        apply baseStepOf_ne_none
        intro b
        apply resolveAux_total
        have h1 := freeKeys_cons_length (pyGet_mem_keys hg) (List.not_mem_nil n)
        have h2 := freeKeys_nil_le t
        omega
      cases hbs : baseStepOf (fun b => resolveAux t t.length b [n]) n info with
      | none => exact absurd hbs hne
      | some x =>
        cases x with
        | err e => exact ⟨e, rfl⟩
        | ok bt =>
          refine ⟨.invalidTags n, ?_⟩
          simp [finishTags, hbt]
    · intro hnb
      rw [resolve_build_tags_unfold hg, baseStepOf_of_noTruthy hnb]
      simp [finishTags, hbt]

/-- Witness for the amended C6: a truthy non-string base raises the
invalid-base error; a non-list `buildtags` with no base raises the
invalid-buildtags error. -/
theorem c6_witness :
    resolve_build_tags "w" [("w", some ⟨some .otherTruthy, some (.list [])⟩)] =
        some (.err (.invalidBase "w")) ∧
      resolve_build_tags "u" [("u", some ⟨none, some .other⟩)] =
        some (.err (.invalidTags "u")) :=
  ⟨(c6_type_validation _ "w" ⟨some .otherTruthy, some (.list [])⟩ (by decide)).1 rfl,
   ((c6_type_validation _ "u" ⟨none, some .other⟩ (by decide)).2 rfl).2 rfl⟩
